import Mathlib

/-!
Verification of the PadeOpsIO budget/field data-access layer
(`padeopsIO/budgetIO.py` and `padeopsIO/turbineArray.py`).

Modelling conventions:
* float64 array values are modelled over `ℚ`; where only movement and
  comparison of values is at stake this is faithful, and for the one
  operation whose bit-level behaviour matters — the in-place axis
  shifts of the grid re-centering — the element-wise rounding is made
  explicit (`normalize_origin` takes the rounding as a parameter, and
  `fl64` models IEEE-754 binary64 round-to-nearest-ties-to-even on the
  normal range);
* file-system interaction (directory listings, binary streams, the
  namelist registry file `budgetkey.py`, the inflow collaborator
  `inflow.py` and the `Turbine` class of `turbine.py`, which are not
  part of the sources) is made explicit as parameters, or modelled from
  the spec where indicated;
* a Python dict is modelled as a function into `Option`;
* fallible operations return `Option`.
-/

/-! ### Generic list helpers -/

/-- One step of an ascending insertion sort by `key`: insert `a` into the
already sorted list. -/
def insertSorted {α β : Type} [LinearOrder β] (key : α → β) (a : α) : List α → List α
  | [] => [a]
  | b :: l => if key a ≤ key b then a :: b :: l else b :: insertSorted key a l

/-- Ascending (stable) sort by `key`, as performed by Python `list.sort`
and by `numpy.unique`/`numpy.sort` on integer arrays. -/
def sortByKey {α β : Type} [LinearOrder β] (key : α → β) : List α → List α
  | [] => []
  | a :: l => insertSorted key a (sortByKey key l)

/-- Model of `numpy.unique` on a list of integers: the sorted list of distinct
values. -/
def npUnique (l : List ℤ) : List ℤ :=
  (sortByKey (fun x : ℤ => x) l).dedup

/-- First-match association lookup (the semantics of reading one key out
of a Python dict built from a list of key/value pairs). -/
def lookupFirst {α β : Type} [DecidableEq α] (a : α) : List (α × β) → Option β
  | [] => none
  | kv :: rest => if kv.1 = a then some kv.2 else lookupFirst a rest

/-! ### C1 — Fortran-order reshape (`budgetIO.py`, `_read_budgets_padeops`)

`np.fromfile` delivers the budget file as a flat stream; the source then
does `temp.reshape((self.nx, self.ny, self.nz), order='F')`.  With
`order='F'` numpy consumes the flat stream while the target multi-index
runs with the FIRST axis varying fastest: the stream element number `p`
lands at the `p`-th triple of `fortranIndices`.  The reshaped array is
therefore the map sending each index triple to the stream element it was
paired with in that enumeration. -/

/-- The sequence of index triples `(i, j, k)` of an `(nx, ny, nz)` array
in Fortran (column-major) order: `i` varies fastest, then `j`, then `k`. -/
def fortranIndices (nx ny nz : ℕ) : List (ℕ × ℕ × ℕ) :=
  (List.range nz).flatMap fun k =>
    (List.range ny).flatMap fun j =>
      (List.range nx).map fun i => (i, j, k)

/-- Model of `flat.reshape((nx, ny, nz), order='F')`: the element of the reshaped
array at an index triple is the flat-stream element paired with that
triple when the stream is written into Fortran-ordered positions. -/
def reshapeF {α : Type} (flat : List α) (nx ny nz : ℕ) (idx : ℕ × ℕ × ℕ) : Option α :=
  lookupFirst idx ((fortranIndices nx ny nz).zip flat)

/-! ### Grid model (`budgetIO.py`, `_load_grid` / `normalize_origin`) -/

/-- Model of `numpy.linspace a b n` (with the default `endpoint=True`):
`n` evenly spaced samples from `a` to `b` inclusive.  For `n = 1` the
formula degenerates to `[a]`, exactly as numpy does. -/
def linspace (a b : ℚ) (n : ℕ) : List ℚ :=
  (List.range n).map fun i => a + i * (b - a) / ((n : ℚ) - 1)

/-- The grid state owned by a `BudgetIO` session: the three axes, the
current origin shift, and the `normalized_xyz` flag. -/
structure Grid where
  xLine : List ℚ
  yLine : List ℚ
  zLine : List ℚ
  origin : ℚ × ℚ × ℚ
  normalized_xyz : Bool
deriving DecidableEq

/-- Model of `_load_grid` when no explicit axes are given: derive uniform axes
from the domain extents `Lx, Ly, Lz` and cell counts `nx, ny, nz` read
from the namelist.  `x`/`y` are node-centered starting at zero; `z` is
staggered half a cell (`np.linspace(dz/2, Lz - dz/2, nz)`). -/
def load_grid_extents (Lx Ly Lz : ℚ) (nx ny nz : ℕ) : Grid :=
  let dx := Lx / (nx : ℚ)
  let dy := Ly / (ny : ℚ)
  let dz := Lz / (nz : ℚ)
  { xLine := linspace 0 (Lx - dx) nx
    yLine := linspace 0 (Ly - dy) ny
    zLine := linspace (dz / 2) (Lz - dz / 2) nz
    origin := (0, 0, 0)
    normalized_xyz := false }

/-- Model of `BudgetIO.normalize_origin`, with the element-wise float64
rounding of the numpy array arithmetic made explicit: `R` is applied to
every arithmetic result (`R = fl64` below is the faithful instantiation
for the float64 program; `R = id` would be the exact-arithmetic
idealization).  With a target point, subtract `target - origin` from
every axis (an in-place array operation, rounding each element), record
the target as the new origin and set the flag; with `none`, add the
stored origin back to every axis, reset the origin to `(0, 0, 0)` and
clear the flag. -/
def normalize_origin (R : ℚ → ℚ) (g : Grid) (xyz : Option (ℚ × ℚ × ℚ)) : Grid :=
  match xyz with
  | some p =>
    { g with
      xLine := g.xLine.map fun v => R (v - R (p.1 - g.origin.1))
      yLine := g.yLine.map fun v => R (v - R (p.2.1 - g.origin.2.1))
      zLine := g.zLine.map fun v => R (v - R (p.2.2 - g.origin.2.2))
      normalized_xyz := true
      origin := p }
  | none =>
    { g with
      xLine := g.xLine.map fun v => R (v + g.origin.1)
      yLine := g.yLine.map fun v => R (v + g.origin.2.1)
      zLine := g.zLine.map fun v => R (v + g.origin.2.2)
      normalized_xyz := false
      origin := (0, 0, 0) }

/-! ### Float64 rounding model (for the re-centering claim)

The axis arrays hold float64 values, so the in-place shifts of
`normalize_origin` round element-wise.  `fl64` models IEEE-754 binary64
rounding (round to nearest, ties to even) of a rational value in the
normal range: scale by a power of two into `[2^52, 2^53)`, round to an
integer with ties to even, and scale back.  Overflow and subnormals lie
far outside the magnitudes involved here and are not modelled. -/

/-- Fuel-driven floor base-2 logarithm on naturals (structural
recursion; fuel `n` suffices for input `n` because `n < 2 ^ n`). -/
def log2Nat : ℕ → ℕ → ℕ
  | 0, _ => 0
  | fuel + 1, n => if n < 2 then 0 else log2Nat fuel (n / 2) + 1

/-- Floor base-2 logarithm of a positive rational, computed from the
logarithms of numerator and denominator, corrected by one comparison. -/
def qlog2 (a : ℚ) : ℤ :=
  let c : ℤ := (log2Nat a.num.natAbs a.num.natAbs : ℤ) - (log2Nat a.den a.den : ℤ)
  if (2 : ℚ) ^ c ≤ a then c else c - 1

/-- Round to the nearest integer, ties to even. -/
def roundHalfEven (q : ℚ) : ℤ :=
  if q - ⌊q⌋ < 1 / 2 then ⌊q⌋
  else if 1 / 2 < q - ⌊q⌋ then ⌊q⌋ + 1
  else if ⌊q⌋ % 2 = 0 then ⌊q⌋ else ⌊q⌋ + 1

/-- Model of IEEE-754 binary64 rounding (round to nearest, ties to even)
in the normal range. -/
def fl64 (q : ℚ) : ℚ :=
  if q = 0 then 0
  else
    (if q < 0 then (-1 : ℚ) else 1) *
      ((roundHalfEven (|q| * (2 : ℚ) ^ ((52 : ℤ) - qlog2 |q|)) : ℤ) : ℚ) *
      (2 : ℚ) ^ (qlog2 |q| - 52)

/-- A grid exhibiting rounding in the re-centering reset: a single axis
value `2⁻⁵⁴`, below the spacing of float64 values near 1. -/
def gBit : Grid :=
  { xLine := [(2 : ℚ) ^ (-54 : ℤ)]
    yLine := [0]
    zLine := [0]
    origin := (0, 0, 0)
    normalized_xyz := false }

/-- A grid of small dyadic values on which every re-centering operation
towards `p = (1/4, 0, 0)` rounds exactly under `fl64`. -/
def gDyad : Grid :=
  { xLine := [1 / 2]
    yLine := []
    zLine := []
    origin := (0, 0, 0)
    normalized_xyz := false }

/-! ### C4 — archive writers (`budgetIO.py`, `write_npz` / `write_mat`)

Both writers are reduced to their file-writing behaviour: the result is
the list of files written, in order.  `dest_exists` is the
`os.path.exists` test on the destination budgets container;
`associate_budgets` is the guard at the top of either function.  Term
parsing and slicing, which precede the existence check in the source,
read data but write no files. -/

/-- Model of `BudgetIO.write_npz`: the `write_arrs` flag is set when the
destination does not exist, or when `overwrite` is passed; otherwise the
function returns before writing anything.  When the flag is set, the
budgets container is written (`np.savez`) and then the metadata record
(`write_metadata`). -/
def write_npz (associate_budgets dest_exists overwrite : Bool)
    (dest meta : String) : List String :=
  if !associate_budgets then []
  else if !dest_exists then [dest, meta]
  else if overwrite then [dest, meta]
  else []

/-- Model of `BudgetIO.write_mat`: same structure as `write_npz` (the source is an
explicit copy), writing with `savemat` instead of `np.savez`. -/
def write_mat (associate_budgets dest_exists overwrite : Bool)
    (dest meta : String) : List String :=
  if !associate_budgets then []
  else if !dest_exists then [dest, meta]
  else if overwrite then [dest, meta]
  else []

/-! ### Key registry and term parsing (`budgetIO.py`, `_parse_budget_terms`)

The registry `BudgetIO.key` is built by `budgetkey.get_key()`
(not among the sources); it is carried as an explicit parameter: a list
of `(name, (budget_id, term_id))` pairs queried in both directions. -/

/-- A `(budget_id, term_id)` pair of the solver's numbering. -/
abbrev TermPair := ℤ × ℤ

/-- A requested budget term: either a symbolic name or a raw
`(budget, term)` pair (both forms are accepted by
`_parse_budget_terms`). -/
inductive TermReq where
  | name (s : String)
  | pair (p : TermPair)
deriving DecidableEq

/-- Forward registry lookup `BudgetIO.key[s]` (first match), `none` when
the name is not registered. -/
def regLookup (reg : List (String × TermPair)) (s : String) : Option TermPair :=
  (reg.find? fun kv => kv.1 == s).map (·.2)

/-- Inverse registry lookup `BudgetIO.key.inverse[p][0]` (first match),
`none` when the pair is not registered. -/
def regInv (reg : List (String × TermPair)) (p : TermPair) : Option String :=
  (reg.find? fun kv => kv.2 == p).map (·.1)

/-- The outcome of `_parse_budget_terms`: the surviving name-to-pair
mapping, together with the reported missing and invalid requests. -/
structure ParseResult where
  key_subset : List (String × TermPair)
  missing_terms : List String
  invalid_terms : List TermReq

/-- Model of `BudgetIO._parse_budget_terms` on an explicit request list.
`existing_keys` stands for `self.existing_terms(include_wakes=...)`, the
names available on the active backend.  Membership tests mirror the
Python ones: a name is never an element of a list of pairs and vice
versa, so each comprehension only retains the matching constructor.  The
`set(...)` dedups are rendered with `List.dedup`; the final dict
comprehension keys `valid_terms` by forward lookup (total on registered
names, rendered with `filterMap`). -/
def parse_budget_terms (reg : List (String × TermPair))
    (existing_keys : List String) (budget_terms : List TermReq) : ParseResult :=
  let existing_tup := existing_keys.filterMap (regLookup reg)
  let valid_keys := budget_terms.filterMap fun r =>
    match r with
    | .name s => if s ∈ existing_keys then some s else none
    | .pair _ => none
  let missing_keys := budget_terms.filterMap fun r =>
    match r with
    | .name s => if s ∉ existing_keys ∧ (regLookup reg s).isSome then some s else none
    | .pair _ => none
  let invalid := budget_terms.filter fun r =>
    match r with
    | .name s => (regLookup reg s).isNone
    | .pair p => (regInv reg p).isNone
  let valid_tup := budget_terms.filterMap fun r =>
    match r with
    | .name _ => none
    | .pair p => if p ∈ existing_tup then some p else none
  let missing_tup := budget_terms.filterMap fun r =>
    match r with
    | .name _ => none
    | .pair p => if p ∉ existing_tup ∧ (regInv reg p).isSome then some p else none
  let valid_terms := (valid_keys ++ valid_tup.filterMap (regInv reg)).dedup
  let missing_terms := (missing_keys ++ missing_tup.filterMap (regInv reg)).dedup
  { key_subset := valid_terms.filterMap fun s => (regLookup reg s).map fun p => (s, p)
    missing_terms := missing_terms
    invalid_terms := invalid }

/-! ### Budget cache state machine (`budgetIO.py`, `clear_budgets` /
`read_budgets` / `_read_budgets_padeops` / `calc_wake`)

The raw (PadeOps) backend of a `BudgetIO` session.  The run directory is
abstracted by `all_budget_tidx` (the sorted distinct budget time indices
found by `unique_budget_tidx`) and by the `files`/`nsamp` parameters of
the environment: `files name t` is the (already reshaped, cf. `reshapeF`)
content of the unique budget file for `name` at time index `t`, and
`nsamp name t` the sample count parsed from its file name. -/

/-- A budget array value: a 3-D field indexed by `(i, j, k)`. -/
abbrev BArr := ℕ → ℕ → ℕ → ℚ

/-- The mutable budget-cache state of a raw-backend session. -/
structure PadeState where
  budget : String → Option BArr
  budget_tidx : ℤ
  budget_n : ℤ
  all_budget_tidx : List ℤ

/-- The read-only collaborators of the budget-reading procedures: the key
registry, the backend's available term names
(`existing_terms(include_wakes=False)`), the budget files, and the
inflow profile collaborator (`inflow.py`, external to the sources) used
by `calc_wake`. -/
structure ReadEnv where
  reg : List (String × TermPair)
  existing_keys : List String
  files : String → ℤ → BArr
  nsamp : String → ℤ → ℤ
  inflow_u : ℕ → ℚ
  inflow_v : ℕ → ℚ

/-- Model of `BudgetIO.clear_budgets` (on a session with budgets associated):
empty the cache and reset `budget_tidx` to the last available budget
time index (`unique_budget_tidx(return_last=True)`, the largest element
of the sorted index list; a session with budgets associated has a
nonempty index list). -/
def clear_budgets (st : PadeState) : PadeState :=
  { st with budget := fun _ => none
            budget_tidx := st.all_budget_tidx.getLastD st.budget_tidx }

/-- The running minimum of `np.argmin(np.abs(tidx_arr - tidx))`: fold over
the remaining candidates, replacing the current best only on a strictly
smaller absolute difference (`np.argmin` returns the first occurrence of
the minimum). -/
def minAbsFold (t x : ℤ) (xs : List ℤ) : ℤ :=
  xs.foldl (fun best y => if (y - t).natAbs < (best - t).natAbs then y else best) x

/-- Model of `np.argmin(np.abs(tidx_arr - tidx))` followed by indexing: the first
element of `l` minimizing the absolute difference to `t`. -/
def closestTidx (l : List ℤ) (t : ℤ) : ℤ :=
  match l with
  | [] => t
  | x :: xs => minAbsFold t x xs

/-- The time-index resolution at the top of `_read_budgets_padeops`:
`None` continues from the cache's current `budget_tidx` (the guard
`self.budget.keys() is not None` always holds, so the other arm of that
conditional is unreachable); an explicit index that is not available is
replaced by the nearest available one. -/
def resolveTidx (st : PadeState) (tidx : Option ℤ) : ℤ :=
  match tidx with
  | none => st.budget_tidx
  | some t => if t ∈ st.all_budget_tidx then t else closestTidx st.all_budget_tidx t

/-- One iteration of the loop in `_read_budgets_padeops`: record the
sample count parsed from the matched file name, update `budget_tidx` to
the resolved time index, and cache the file's reshaped content under the
term's name. -/
def read_one (files : String → ℤ → BArr) (nsamp : String → ℤ → ℤ) (t : ℤ)
    (s : PadeState) (kv : String × TermPair) : PadeState :=
  { s with budget_n := nsamp kv.1 t
           budget_tidx := t
           budget := fun k => if k = kv.1 then some (files kv.1 t) else s.budget k }

/-- Model of `BudgetIO._read_budgets_padeops`: resolve the requested time index
once, then load every term of `key_subset` at it. -/
def read_budgets_padeops (files : String → ℤ → BArr) (nsamp : String → ℤ → ℤ)
    (key_subset : List (String × TermPair)) (tidx : Option ℤ) (st : PadeState) : PadeState :=
  let t := resolveTidx st tidx
  key_subset.foldl (read_one files nsamp t) st

/-- The body of `BudgetIO.read_budgets` after the wake interception:
parse the requested terms (`include_wakes=False`), then
 * same time index requested (`self.budget_tidx == tidx`; false when
   `tidx` is `None`): without `overwrite`, drop the terms already
   cached, otherwise clear the cache;
 * different explicit time index (`self.budget.keys() is not None` always
   holds): clear the cache;
and delegate to the raw backend reader. -/
def read_budgets_core (env : ReadEnv) (budget_terms : List TermReq)
    (overwrite : Bool) (tidx : Option ℤ) (st : PadeState) : PadeState :=
  let key_subset := (parse_budget_terms env.reg env.existing_keys budget_terms).key_subset
  if some st.budget_tidx = tidx then
    if !overwrite then
      read_budgets_padeops env.files env.nsamp
        (key_subset.filter fun kv => (st.budget kv.1).isNone) tidx st
    else
      read_budgets_padeops env.files env.nsamp key_subset tidx (clear_budgets st)
  else if tidx.isSome then
    read_budgets_padeops env.files env.nsamp key_subset tidx (clear_budgets st)
  else
    read_budgets_padeops env.files env.nsamp key_subset tidx st

/-- Model of `BudgetIO.calc_wake` with its default `wInflow=False` (the only form
`read_budgets` invokes): return unchanged when both wake terms are
cached and `overwrite` is not set; otherwise ensure the required mean
fields are loaded (`self.read_budgets(['ubar', 'vbar'])`: a wake-free
request, hence `read_budgets_core`), then store
`uwake = u[None, None, :] - ubar` and `vwake = v[None, None, :] - vbar`
(the inflow profile broadcast over the horizontal plane).  A missing
mean field surfaces as a `KeyError`, rendered as `none`. -/
def calc_wake (env : ReadEnv) (overwrite : Bool) (st : PadeState) : Option PadeState :=
  let target_terms := ["uwake", "vwake"]
  let req_terms := ["ubar", "vbar"]
  if (target_terms.all fun t => (st.budget t).isSome) && !overwrite then
    some st
  else
    let st1 := if req_terms.all fun t => (st.budget t).isSome then st
      else read_budgets_core env (req_terms.map TermReq.name) false none st
    match st1.budget "ubar", st1.budget "vbar" with
    | some ub, some vb =>
      let stU := { st1 with
        budget := fun k =>
          if k = "uwake" then some (fun i j h => env.inflow_u h - ub i j h)
          else st1.budget k }
      some { stU with
        budget := fun k =>
          if k = "vwake" then some (fun i j h => env.inflow_v h - vb i j h)
          else stU.budget k }
    | _, _ => none

/-- Is a requested term one of the derived wake terms?  (`t in ['uwake',
'vwake', 'wwake']`; a `(budget, term)` pair is never equal to one of
these strings.) -/
def isWakeTerm : TermReq → Bool
  | .name s => s == "uwake" || s == "vwake" || s == "wwake"
  | .pair _ => false

/-- Model of `BudgetIO.read_budgets` (raw backend): intercept wake terms by
computing them first (`self.calc_wake()`, default arguments), then run
the regular path on the request. -/
def read_budgets (env : ReadEnv) (budget_terms : List TermReq)
    (overwrite : Bool) (tidx : Option ℤ) (st : PadeState) : Option PadeState :=
  let st0 := if budget_terms.any isWakeTerm then calc_wake env false st else some st
  st0.map fun s => read_budgets_core env budget_terms overwrite tidx s

/-! ### C9 — budget discovery (`budgetIO.py`, `existing_budgets`)

The raw-backend branch: scan the run-directory file names with the
pattern `Run<runid>.*_budget(\d+).*`; `captures` holds the captured
integer per file name (`none` for a non-matching name).  When budget 0
is present, budget 5 (the derived wake budget) is appended before the
`np.unique` pass. -/

/-- Model of `BudgetIO.existing_budgets`, raw backend. -/
def existing_budgets (captures : List (Option ℤ)) : List ℤ :=
  let budget_list := captures.filterMap id
  let budget_list := if (0 : ℤ) ∈ budget_list then budget_list ++ [5] else budget_list
  npUnique budget_list

/-! ### C10 — turbine array construction (`turbineArray.py`) -/

/-- Modelled from the spec: the `Turbine` class (`turbine.py`, not among
the sources).  Per the spec a turbine "exposes a position, a sort key,
and actuator-disk parameters", and turbine lists are ordered "by a
chosen key (default: streamwise location)"; `sortval` is the value of
the configured sort key, the only attribute the construction-time sort
consults. -/
structure Turbine where
  sortval : ℚ
deriving DecidableEq

/-- Model of `TurbineArray.__init__` on an explicit `init_ls` of `m` turbine
namelists: `num_turbines` defaults to `m`; the read loop `break`s at
index `num_turbines` (so at most that many namelists are consumed); the
array is then sorted ascending by the configured sort key
(`self.sort()`). -/
def turbineArrayTurbines (init_ls : List Turbine) (num_turbines : Option ℕ) : List Turbine :=
  let n := match num_turbines with
    | some k => k
    | none => init_ls.length
  sortByKey Turbine.sortval (init_ls.take n)

/-! ### Concrete instances used by the witnesses -/

/-- A small concrete registry: the two mean-velocity terms of budget 0. -/
def regW : List (String × TermPair) := [("ubar", (0, 1)), ("vbar", (0, 2))]

/-- A concrete raw-backend environment: both mean terms exist, every
budget file reads as the zero field, and the inflow profile is zero. -/
def envW : ReadEnv :=
  { reg := regW
    existing_keys := ["ubar", "vbar"]
    files := fun _ _ => fun _ _ _ => 0
    nsamp := fun _ _ => 1
    inflow_u := fun _ => 0
    inflow_v := fun _ => 0 }

/-- A freshly initialized session: empty cache, budget files at time
indices 5 and 9, `budget_tidx` initialized to the last one. -/
def stW : PadeState :=
  { budget := fun _ => none
    budget_tidx := 9
    budget_n := 1
    all_budget_tidx := [5, 9] }

/-- A session whose budget files live at time indices 2, 5 and 9. -/
def stNear : PadeState :=
  { budget := fun _ => none
    budget_tidx := 9
    budget_n := 1
    all_budget_tidx := [2, 5, 9] }

/-- A session with constant mean fields `ubar = 8` and `vbar = 3`
cached and no wake terms computed yet. -/
def stWake : PadeState :=
  { budget := fun k =>
      if k = "ubar" then some fun _ _ _ => 8
      else if k = "vbar" then some fun _ _ _ => 3
      else none
    budget_tidx := 9
    budget_n := 1
    all_budget_tidx := [5, 9] }

/-! ## Theorems -/

/-! ### Sorting infrastructure -/

theorem length_insertSorted {α β : Type} [LinearOrder β] (key : α → β) (a : α) :
    ∀ l : List α, (insertSorted key a l).length = l.length + 1
  | [] => rfl
  | b :: l => by
    by_cases h : key a ≤ key b <;>
      simp [insertSorted, h, length_insertSorted key a l]

theorem mem_insertSorted {α β : Type} [LinearOrder β] (key : α → β) (a x : α) :
    ∀ l : List α, x ∈ insertSorted key a l ↔ x = a ∨ x ∈ l
  | [] => by simp [insertSorted]
  | b :: l => by
    by_cases h : key a ≤ key b <;>
      simp [insertSorted, h, mem_insertSorted key a x l] <;> tauto

theorem sorted_insertSorted {α β : Type} [LinearOrder β] (key : α → β) (a : α) :
    ∀ l : List α, l.Sorted (fun u v => key u ≤ key v) →
      (insertSorted key a l).Sorted (fun u v => key u ≤ key v)
  | [], _ => by simp [insertSorted]
  | b :: l, hs => by
    rw [List.sorted_cons] at hs
    by_cases h : key a ≤ key b
    · rw [insertSorted, if_pos h, List.sorted_cons]
      refine ⟨?_, List.sorted_cons.mpr hs⟩
      intro z hz
      rcases List.mem_cons.mp hz with rfl | hz
      · exact h
      · exact le_trans h (hs.1 z hz)
    · rw [insertSorted, if_neg h, List.sorted_cons]
      refine ⟨?_, sorted_insertSorted key a l hs.2⟩
      intro z hz
      rcases (mem_insertSorted key a z l).mp hz with rfl | hz
      · exact le_of_lt (lt_of_not_le h)
      · exact hs.1 z hz

theorem length_sortByKey {α β : Type} [LinearOrder β] (key : α → β) :
    ∀ l : List α, (sortByKey key l).length = l.length
  | [] => rfl
  | a :: l => by
    simp [sortByKey, length_insertSorted, length_sortByKey key l]

theorem mem_sortByKey {α β : Type} [LinearOrder β] (key : α → β) (x : α) :
    ∀ l : List α, x ∈ sortByKey key l ↔ x ∈ l
  | [] => Iff.rfl
  | a :: l => by
    simp [sortByKey, mem_insertSorted, mem_sortByKey key x l]

theorem sorted_sortByKey {α β : Type} [LinearOrder β] (key : α → β) :
    ∀ l : List α, (sortByKey key l).Sorted (fun u v => key u ≤ key v)
  | [] => List.sorted_nil
  | a :: l => sorted_insertSorted key a _ (sorted_sortByKey key l)

theorem mem_npUnique (l : List ℤ) (x : ℤ) : x ∈ npUnique l ↔ x ∈ l := by
  rw [npUnique, List.mem_dedup, mem_sortByKey]

theorem sorted_npUnique (l : List ℤ) : (npUnique l).Sorted (· < ·) := by
  have hle : (npUnique l).Sorted (· ≤ ·) := by
    have := sorted_sortByKey (fun x : ℤ => x) l
    exact List.Pairwise.sublist (List.dedup_sublist _) this
  have hne : (npUnique l).Nodup := List.nodup_dedup _
  exact (hle.and hne).imp fun h => lt_of_le_of_ne h.1 h.2

/-! ### Claim C10 — turbine array construction -/

/-- C10: a `TurbineArray` built from `m` initialization namelists keeps
`min k m` turbines when `num_turbines = k` is given (extra namelists are
ignored), all `m` of them otherwise, and in either case the `turbines`
sequence is sorted ascending by the configured sort key immediately
after construction. -/
theorem turbineArray_init_spec (init_ls : List Turbine) (k : ℕ) :
    (turbineArrayTurbines init_ls (some k)).length = min k init_ls.length ∧
    (turbineArrayTurbines init_ls none).length = init_ls.length ∧
    ∀ nt : Option ℕ, (turbineArrayTurbines init_ls nt).Sorted
      (fun a b => a.sortval ≤ b.sortval) := by
  refine ⟨?_, ?_, ?_⟩
  · simp [turbineArrayTurbines, length_sortByKey]
  · simp [turbineArrayTurbines, length_sortByKey]
  · intro nt
    exact sorted_sortByKey Turbine.sortval _

/-! ### Claim C9 — budget discovery -/

/-- C9: `existing_budgets` returns the sorted list of distinct budget ids
captured from the run directory's file names, appending the derived wake
budget 5 whenever budget 0 is present; in particular, a directory whose
matching files all capture budget 0 yields `[0, 5]`. -/
theorem existing_budgets_spec (captures : List (Option ℤ)) :
    (existing_budgets captures).Sorted (· < ·) ∧
    (∀ x : ℤ, x ∈ existing_budgets captures ↔
      x ∈ captures.filterMap id ∨ (x = 5 ∧ (0 : ℤ) ∈ captures.filterMap id)) ∧
    existing_budgets [some 0, none, some 0] = [0, 5] := by
  refine ⟨?_, ?_, by decide⟩
  · by_cases h0 : (0 : ℤ) ∈ captures.filterMap id <;>
      simp only [existing_budgets, h0, if_pos, if_neg, not_false_iff] <;>
      exact sorted_npUnique _
  · intro x
    by_cases h0 : (0 : ℤ) ∈ captures.filterMap id <;>
      simp only [existing_budgets, h0, if_pos, if_neg, not_false_iff,
        mem_npUnique, List.mem_append, List.mem_singleton] <;>
      tauto

/-! ### Claim C7 — grid staggering -/

theorem linspace_head (a b : ℚ) (n : ℕ) (hn : 1 ≤ n) :
    (linspace a b n).head? = some a := by
  obtain ⟨m, rfl⟩ : ∃ m, n = m + 1 := ⟨n - 1, by omega⟩
  simp [linspace, List.range_succ_eq_map]

theorem linspace_getLast (a b : ℚ) (n : ℕ) (hn : 1 ≤ n) :
    (linspace a b n).getLast? =
      some (a + ((n - 1 : ℕ) : ℚ) * (b - a) / ((n : ℚ) - 1)) := by
  obtain ⟨m, rfl⟩ : ∃ m, n = m + 1 := ⟨n - 1, by omega⟩
  simp [linspace, List.range_succ, List.getLast?_concat]

theorem linspace_last_zero_start (L : ℚ) (n : ℕ) (hn : 1 ≤ n) :
    (linspace 0 (L - L / (n : ℚ)) n).getLast? = some (L - L / (n : ℚ)) := by
  rw [linspace_getLast _ _ _ hn]
  rcases Nat.lt_or_ge n 2 with h2 | h2
  · have h1 : n = 1 := by omega
    subst h1
    norm_num
  · have hcast : ((n - 1 : ℕ) : ℚ) = (n : ℚ) - 1 := by
      rw [Nat.cast_sub hn, Nat.cast_one]
    have hne : (n : ℚ) - 1 ≠ 0 := by
      have : (2 : ℚ) ≤ (n : ℚ) := by exact_mod_cast h2
      intro h
      nlinarith
    rw [hcast]
    congr 1
    field_simp
    ring

theorem linspace_last_staggered (L : ℚ) (n : ℕ) (hn : 1 ≤ n) :
    (linspace (L / (n : ℚ) / 2) (L - L / (n : ℚ) / 2) n).getLast? =
      some (L - L / (n : ℚ) / 2) := by
  rw [linspace_getLast _ _ _ hn]
  rcases Nat.lt_or_ge n 2 with h2 | h2
  · have h1 : n = 1 := by omega
    subst h1
    norm_num
    ring
  · have hcast : ((n - 1 : ℕ) : ℚ) = (n : ℚ) - 1 := by
      rw [Nat.cast_sub hn, Nat.cast_one]
    have hne : (n : ℚ) - 1 ≠ 0 := by
      have : (2 : ℚ) ≤ (n : ℚ) := by exact_mod_cast h2
      intro h
      nlinarith
    rw [hcast]
    congr 1
    field_simp
    ring

/-- C7: a grid built from extents and counts has cell-centered `z`
(first element `dz/2`, last `Lz - dz/2`) and node-centered `x`/`y`
starting at zero (first element `0`, last `L - d`), where `d = L/n` on
each axis. -/
theorem load_grid_staggering (Lx Ly Lz : ℚ) (nx ny nz : ℕ)
    (hx : 1 ≤ nx) (hy : 1 ≤ ny) (hz : 1 ≤ nz) :
    (load_grid_extents Lx Ly Lz nx ny nz).xLine.head? = some 0 ∧
    (load_grid_extents Lx Ly Lz nx ny nz).xLine.getLast? = some (Lx - Lx / (nx : ℚ)) ∧
    (load_grid_extents Lx Ly Lz nx ny nz).yLine.head? = some 0 ∧
    (load_grid_extents Lx Ly Lz nx ny nz).yLine.getLast? = some (Ly - Ly / (ny : ℚ)) ∧
    (load_grid_extents Lx Ly Lz nx ny nz).zLine.head? = some (Lz / (nz : ℚ) / 2) ∧
    (load_grid_extents Lx Ly Lz nx ny nz).zLine.getLast? =
      some (Lz - Lz / (nz : ℚ) / 2) := by
  refine ⟨?_, ?_, ?_, ?_, ?_, ?_⟩
  · exact linspace_head _ _ _ hx
  · exact linspace_last_zero_start Lx nx hx
  · exact linspace_head _ _ _ hy
  · exact linspace_last_zero_start Ly ny hy
  · exact linspace_head _ _ _ hz
  · exact linspace_last_staggered Lz nz hz

/-- Witness for C7 at `Lx = 10, Ly = 4, Lz = 3, nx = 4, ny = 2, nz = 3`. -/
theorem load_grid_staggering_witness :
    (1 ≤ 4 ∧ 1 ≤ 2 ∧ 1 ≤ 3) ∧
    ((load_grid_extents 10 4 3 4 2 3).xLine.head? = some 0 ∧
     (load_grid_extents 10 4 3 4 2 3).xLine.getLast? = some (10 - 10 / ((4 : ℕ) : ℚ)) ∧
     (load_grid_extents 10 4 3 4 2 3).yLine.head? = some 0 ∧
     (load_grid_extents 10 4 3 4 2 3).yLine.getLast? = some (4 - 4 / ((2 : ℕ) : ℚ)) ∧
     (load_grid_extents 10 4 3 4 2 3).zLine.head? = some (3 / ((3 : ℕ) : ℚ) / 2) ∧
     (load_grid_extents 10 4 3 4 2 3).zLine.getLast? = some (3 - 3 / ((3 : ℕ) : ℚ) / 2)) :=
  ⟨⟨by decide, by decide, by decide⟩,
   load_grid_staggering 10 4 3 4 2 3 (by decide) (by decide) (by decide)⟩

/-! ### Claim C6 — recentering under explicit float64 rounding -/

theorem log2Nat_spec : ∀ (fuel n : ℕ), 0 < n → n < 2 ^ fuel →
    2 ^ log2Nat fuel n ≤ n ∧ n < 2 ^ (log2Nat fuel n + 1)
  | 0, n => by
    intro h1 h2
    rw [pow_zero] at h2
    omega
  | fuel + 1, n => by
    intro h1 h2
    simp only [log2Nat]
    by_cases hn : n < 2
    · rw [if_pos hn]
      constructor
      · simpa using h1
      · simpa using hn
    · rw [if_neg hn]
      obtain ⟨hl, hr⟩ := log2Nat_spec fuel (n / 2) (by omega) (by
        rw [pow_succ] at h2
        omega)
      constructor
      · rw [pow_succ]
        omega
      · rw [pow_succ]
        omega

theorem qlog2_spec (a : ℚ) (ha : 0 < a) :
    (2 : ℚ) ^ qlog2 a ≤ a ∧ a < (2 : ℚ) ^ (qlog2 a + 1) := by
  have hnum : (0 : ℤ) < a.num := Rat.num_pos.mpr ha
  have hn : 0 < a.num.natAbs := Int.natAbs_pos.mpr (ne_of_gt hnum)
  have hdme : 0 < a.den := a.den_pos
  obtain ⟨hn1, hn2⟩ := log2Nat_spec a.num.natAbs a.num.natAbs hn (Nat.lt_two_pow _)
  obtain ⟨hd1, hd2⟩ := log2Nat_spec a.den a.den hdme (Nat.lt_two_pow _)
  set Ln := log2Nat a.num.natAbs a.num.natAbs with hLn
  set Ld := log2Nat a.den a.den with hLd
  have haq : a = (a.num.natAbs : ℚ) / (a.den : ℚ) := by
    have h1 : ((a.num.natAbs : ℤ) : ℚ) = (a.num : ℚ) := by
      rw [Int.natAbs_of_nonneg (le_of_lt hnum)]
    calc a = (a.num : ℚ) / (a.den : ℚ) := (Rat.num_div_den a).symm
    _ = ((a.num.natAbs : ℤ) : ℚ) / (a.den : ℚ) := by rw [h1]
    _ = (a.num.natAbs : ℚ) / (a.den : ℚ) := by rw [Int.cast_natCast]
  have hq1 : (2 : ℚ) ^ (Ln : ℤ) ≤ (a.num.natAbs : ℚ) := by
    rw [zpow_natCast]
    exact_mod_cast hn1
  have hq2 : (a.num.natAbs : ℚ) < (2 : ℚ) ^ ((Ln : ℤ) + 1) := by
    have he : ((Ln : ℤ) + 1) = ((Ln + 1 : ℕ) : ℤ) := by push_cast; ring
    rw [he, zpow_natCast]
    exact_mod_cast hn2
  have hq3 : (2 : ℚ) ^ (Ld : ℤ) ≤ (a.den : ℚ) := by
    rw [zpow_natCast]
    exact_mod_cast hd1
  have hq4 : (a.den : ℚ) < (2 : ℚ) ^ ((Ld : ℤ) + 1) := by
    have he : ((Ld : ℤ) + 1) = ((Ld + 1 : ℕ) : ℤ) := by push_cast; ring
    rw [he, zpow_natCast]
    exact_mod_cast hd2
  have hdq : (0 : ℚ) < (a.den : ℚ) := by exact_mod_cast hdme
  have hub : a < (2 : ℚ) ^ ((Ln : ℤ) - Ld + 1) := by
    rw [haq]
    calc (a.num.natAbs : ℚ) / (a.den : ℚ)
        < (2 : ℚ) ^ ((Ln : ℤ) + 1) / (a.den : ℚ) := by gcongr
    _ ≤ (2 : ℚ) ^ ((Ln : ℤ) + 1) / (2 : ℚ) ^ (Ld : ℤ) := by gcongr
    _ = (2 : ℚ) ^ ((Ln : ℤ) + 1 - Ld) := by
          rw [← zpow_sub₀ (by norm_num : (2 : ℚ) ≠ 0)]
    _ = (2 : ℚ) ^ ((Ln : ℤ) - Ld + 1) := by
          congr 1
          ring
  have hlb : (2 : ℚ) ^ ((Ln : ℤ) - Ld - 1) < a := by
    rw [haq]
    calc (2 : ℚ) ^ ((Ln : ℤ) - Ld - 1)
        = (2 : ℚ) ^ (Ln : ℤ) / (2 : ℚ) ^ ((Ld : ℤ) + 1) := by
          rw [← zpow_sub₀ (by norm_num : (2 : ℚ) ≠ 0)]
          congr 1
          ring
    _ < (2 : ℚ) ^ (Ln : ℤ) / (a.den : ℚ) := by gcongr
    _ ≤ (a.num.natAbs : ℚ) / (a.den : ℚ) := by gcongr
  have hcdef : qlog2 a =
      if (2 : ℚ) ^ ((Ln : ℤ) - Ld) ≤ a then (Ln : ℤ) - Ld else (Ln : ℤ) - Ld - 1 := by
    simp only [qlog2]
  by_cases hc : (2 : ℚ) ^ ((Ln : ℤ) - Ld) ≤ a
  · rw [hcdef, if_pos hc]
    exact ⟨hc, hub⟩
  · rw [hcdef, if_neg hc]
    constructor
    · exact le_of_lt hlb
    · have he : (Ln : ℤ) - Ld - 1 + 1 = (Ln : ℤ) - Ld := by ring
      rw [he]
      exact lt_of_not_le hc

theorem qlog2_unique (a : ℚ) (e : ℤ) (ha : 0 < a)
    (h1 : (2 : ℚ) ^ e ≤ a) (h2 : a < (2 : ℚ) ^ (e + 1)) : qlog2 a = e := by
  obtain ⟨l1, l2⟩ := qlog2_spec a ha
  by_contra hne
  rcases lt_or_gt_of_ne hne with hlt | hgt
  · have hstep : (2 : ℚ) ^ (qlog2 a + 1) ≤ (2 : ℚ) ^ e :=
      zpow_le_zpow_right₀ one_le_two (by omega)
    linarith
  · have hstep : (2 : ℚ) ^ (e + 1) ≤ (2 : ℚ) ^ qlog2 a :=
      zpow_le_zpow_right₀ one_le_two (by omega)
    linarith

theorem fl64_zero : fl64 0 = 0 := by
  rw [fl64, if_pos rfl]

theorem fl64_eval (q : ℚ) (e : ℤ) (hq : q ≠ 0)
    (h1 : (2 : ℚ) ^ e ≤ |q|) (h2 : |q| < (2 : ℚ) ^ (e + 1)) :
    fl64 q = (if q < 0 then (-1 : ℚ) else 1) *
      ((roundHalfEven (|q| * (2 : ℚ) ^ ((52 : ℤ) - e)) : ℤ) : ℚ) *
      (2 : ℚ) ^ (e - 52) := by
  rw [fl64, if_neg hq, qlog2_unique |q| e (abs_pos.mpr hq) h1 h2]

theorem roundHalfEven_intCast (n : ℤ) : roundHalfEven (n : ℚ) = n := by
  rw [roundHalfEven, Int.floor_intCast, sub_self, if_pos (by norm_num)]

theorem fl64_pow2 (e : ℤ) : fl64 ((2 : ℚ) ^ e) = (2 : ℚ) ^ e := by
  have hpos : (0 : ℚ) < (2 : ℚ) ^ e := zpow_pos (by norm_num) e
  have habs : |(2 : ℚ) ^ e| = (2 : ℚ) ^ e := abs_of_pos hpos
  rw [fl64_eval _ e (ne_of_gt hpos) (by rw [habs])
    (by rw [habs]; exact zpow_lt_zpow_right₀ one_lt_two (by omega))]
  rw [habs, if_neg (not_lt.mpr (le_of_lt hpos))]
  have harg : (2 : ℚ) ^ e * (2 : ℚ) ^ ((52 : ℤ) - e) = ((2 ^ 52 : ℤ) : ℚ) := by
    rw [← zpow_add₀ (by norm_num : (2 : ℚ) ≠ 0)]
    norm_num
  rw [harg, roundHalfEven_intCast, one_mul]
  rw [show (((2 ^ 52 : ℤ) : ℤ) : ℚ) = (2 : ℚ) ^ (52 : ℤ) by norm_num]
  rw [← zpow_add₀ (by norm_num : (2 : ℚ) ≠ 0)]
  congr 1
  ring

theorem fl64_one : fl64 1 = 1 := by
  have h : (1 : ℚ) = (2 : ℚ) ^ (0 : ℤ) := by norm_num
  rw [h, fl64_pow2]

theorem fl64_half : fl64 ((1 : ℚ) / 2) = 1 / 2 := by
  have h : ((1 : ℚ) / 2) = (2 : ℚ) ^ (-1 : ℤ) := by norm_num
  rw [h, fl64_pow2]

theorem fl64_quarter : fl64 ((1 : ℚ) / 4) = 1 / 4 := by
  have h : ((1 : ℚ) / 4) = (2 : ℚ) ^ (-2 : ℤ) := by norm_num
  rw [h, fl64_pow2]

theorem fl64_sub_ulp : fl64 ((2 : ℚ) ^ (-54 : ℤ) - 1) = -1 := by
  have hneg : (2 : ℚ) ^ (-54 : ℤ) - 1 < 0 := by norm_num
  have habs : |(2 : ℚ) ^ (-54 : ℤ) - 1| = 1 - (2 : ℚ) ^ (-54 : ℤ) := by
    rw [abs_of_neg hneg]
    ring
  rw [fl64_eval _ (-1) (ne_of_lt hneg)
    (by rw [habs]; norm_num) (by rw [habs]; norm_num)]
  have harg : (1 - (2 : ℚ) ^ (-54 : ℤ)) * (2 : ℚ) ^ ((52 : ℤ) - (-1)) =
      9007199254740992 - 1 / 2 := by norm_num
  have hfloor : ⌊(9007199254740992 : ℚ) - 1 / 2⌋ = 9007199254740991 := by
    rw [Int.floor_eq_iff]
    norm_num
  have hround : roundHalfEven ((9007199254740992 : ℚ) - 1 / 2) = 9007199254740992 := by
    rw [roundHalfEven, hfloor]
    norm_num
  rw [habs, harg, hround, if_pos hneg]
  norm_num

theorem normalize_origin_some_xLine (R : ℚ → ℚ) (g : Grid) (p : ℚ × ℚ × ℚ) :
    (normalize_origin R g (some p)).xLine =
      g.xLine.map fun v => R (v - R (p.1 - g.origin.1)) := rfl

theorem normalize_origin_some_yLine (R : ℚ → ℚ) (g : Grid) (p : ℚ × ℚ × ℚ) :
    (normalize_origin R g (some p)).yLine =
      g.yLine.map fun v => R (v - R (p.2.1 - g.origin.2.1)) := rfl

theorem normalize_origin_some_zLine (R : ℚ → ℚ) (g : Grid) (p : ℚ × ℚ × ℚ) :
    (normalize_origin R g (some p)).zLine =
      g.zLine.map fun v => R (v - R (p.2.2 - g.origin.2.2)) := rfl

theorem normalize_origin_some_origin (R : ℚ → ℚ) (g : Grid) (p : ℚ × ℚ × ℚ) :
    (normalize_origin R g (some p)).origin = p := rfl

theorem normalize_origin_none_xLine (R : ℚ → ℚ) (g : Grid) :
    (normalize_origin R g none).xLine =
      g.xLine.map fun v => R (v + g.origin.1) := rfl

theorem normalize_origin_none_yLine (R : ℚ → ℚ) (g : Grid) :
    (normalize_origin R g none).yLine =
      g.yLine.map fun v => R (v + g.origin.2.1) := rfl

theorem normalize_origin_none_zLine (R : ℚ → ℚ) (g : Grid) :
    (normalize_origin R g none).zLine =
      g.zLine.map fun v => R (v + g.origin.2.2) := rfl

/-- C6 counterexample: under the float64 rounding the reset is not
bit-for-bit.  For the grid with single axis value `2⁻⁵⁴` (origin
`(0,0,0)`) and target `p = (1, 0, 0)`, the shift computes
`fl64 (2⁻⁵⁴ - 1) = -1` (round to nearest, ties to even) and the reset
computes `fl64 (-1 + 1) = 0`: the round trip returns `[0]`, not the
original `[2⁻⁵⁴]`. -/
theorem normalize_origin_restore_counterexample :
    gBit.origin = (0, 0, 0) ∧
    gBit.xLine = [(2 : ℚ) ^ (-54 : ℤ)] ∧
    (normalize_origin fl64 (normalize_origin fl64 gBit (some (1, 0, 0))) none).xLine
      = [0] ∧
    (normalize_origin fl64 (normalize_origin fl64 gBit (some (1, 0, 0))) none).xLine
      ≠ gBit.xLine := by
  have hx : (normalize_origin fl64
      (normalize_origin fl64 gBit (some (1, 0, 0))) none).xLine = [0] := by
    rw [normalize_origin_none_xLine, normalize_origin_some_origin,
      normalize_origin_some_xLine]
    have h0 : gBit.origin.1 = 0 := rfl
    have hl : gBit.xLine = [(2 : ℚ) ^ (-54 : ℤ)] := rfl
    rw [h0, hl]
    have e1 : fl64 ((1, (0 : ℚ), (0 : ℚ)).1 - 0) = 1 := by
      rw [show ((1, (0 : ℚ), (0 : ℚ)).1 - 0 : ℚ) = 1 by norm_num, fl64_one]
    rw [e1, List.map_singleton, fl64_sub_ulp, List.map_singleton]
    rw [show ((-1 : ℚ) + (1, (0 : ℚ), (0 : ℚ)).1) = 0 by norm_num, fl64_zero]
  refine ⟨rfl, rfl, hx, ?_⟩
  rw [hx]
  intro hcontra
  have h2 : (0 : ℚ) = (2 : ℚ) ^ (-54 : ℤ) := by
    have := congrArg (fun l => l.headI) hcontra
    simpa [gBit] using this
  have hp : (0 : ℚ) < (2 : ℚ) ^ (-54 : ℤ) := by positivity
  exact absurd h2 (ne_of_lt hp)

/-- C6 (amended): re-centering with the element-wise float64 rounding
`R` of the axis arithmetic made explicit.  (1) Guarded by the stored
origin, re-centering to `p` twice yields exactly the axes of a single
re-centering, provided `R` maps the zero delta `p - p` to zero and fixes
the once-recentered (already rounded) axis values — identities IEEE-754
rounding satisfies.  (2) From origin `(0,0,0)`, re-centering to `p` and
then resetting restores the three axis arrays bit-for-bit whenever each
element-wise subtraction and re-addition is exact under `R` — not for
every grid (see the counterexample) — and unconditionally resets the
origin to `(0,0,0)` and clears the normalized flag. -/
theorem normalize_origin_recenter_rounded (R : ℚ → ℚ) (g : Grid) (p : ℚ × ℚ × ℚ)
    (hz1 : R (p.1 - p.1) = 0) (hz2 : R (p.2.1 - p.2.1) = 0) (hz3 : R (p.2.2 - p.2.2) = 0)
    (hfx : ∀ v ∈ (normalize_origin R g (some p)).xLine, R v = v)
    (hfy : ∀ v ∈ (normalize_origin R g (some p)).yLine, R v = v)
    (hfz : ∀ v ∈ (normalize_origin R g (some p)).zLine, R v = v) :
    ((normalize_origin R (normalize_origin R g (some p)) (some p)).xLine =
        (normalize_origin R g (some p)).xLine ∧
      (normalize_origin R (normalize_origin R g (some p)) (some p)).yLine =
        (normalize_origin R g (some p)).yLine ∧
      (normalize_origin R (normalize_origin R g (some p)) (some p)).zLine =
        (normalize_origin R g (some p)).zLine) ∧
    (g.origin = (0, 0, 0) →
      R (p.1 - 0) = p.1 → R (p.2.1 - 0) = p.2.1 → R (p.2.2 - 0) = p.2.2 →
      (∀ v ∈ g.xLine, R (v - p.1) = v - p.1 ∧ R (v - p.1 + p.1) = v - p.1 + p.1) →
      (∀ v ∈ g.yLine, R (v - p.2.1) = v - p.2.1 ∧
        R (v - p.2.1 + p.2.1) = v - p.2.1 + p.2.1) →
      (∀ v ∈ g.zLine, R (v - p.2.2) = v - p.2.2 ∧
        R (v - p.2.2 + p.2.2) = v - p.2.2 + p.2.2) →
      (normalize_origin R (normalize_origin R g (some p)) none).xLine = g.xLine ∧
      (normalize_origin R (normalize_origin R g (some p)) none).yLine = g.yLine ∧
      (normalize_origin R (normalize_origin R g (some p)) none).zLine = g.zLine) ∧
    (normalize_origin R (normalize_origin R g (some p)) none).origin = (0, 0, 0) ∧
    (normalize_origin R (normalize_origin R g (some p)) none).normalized_xyz = false := by
  have once : ∀ (l : List ℚ) (c : ℚ), R (c - c) = 0 → (∀ v ∈ l, R v = v) →
      (l.map fun v => R (v - R (c - c))) = l := by
    intro l c hc hfixl
    rw [hc]
    have hmap : (l.map fun v => R (v - 0)) = l.map fun v => v := by
      apply List.map_congr_left
      intro v hv
      rw [sub_zero]
      exact hfixl v hv
    rw [hmap, List.map_id']
  have reset : ∀ (l : List ℚ) (c : ℚ), R (c - 0) = c →
      (∀ v ∈ l, R (v - c) = v - c ∧ R (v - c + c) = v - c + c) →
      ((l.map fun v => R (v - R (c - 0))).map fun v => R (v + c)) = l := by
    intro l c hc hexl
    rw [hc, List.map_map]
    have hmap : (l.map ((fun v => R (v + c)) ∘ fun v => R (v - c))) =
        l.map fun v => v := by
      apply List.map_congr_left
      intro v hv
      simp only [Function.comp_apply]
      rw [(hexl v hv).1, (hexl v hv).2, sub_add_cancel]
    rw [hmap, List.map_id']
  refine ⟨⟨?_, ?_, ?_⟩, ?_, rfl, rfl⟩
  · rw [normalize_origin_some_xLine R (normalize_origin R g (some p)) p,
      normalize_origin_some_origin R g p]
    exact once _ p.1 hz1 hfx
  · rw [normalize_origin_some_yLine R (normalize_origin R g (some p)) p,
      normalize_origin_some_origin R g p]
    exact once _ p.2.1 hz2 hfy
  · rw [normalize_origin_some_zLine R (normalize_origin R g (some p)) p,
      normalize_origin_some_origin R g p]
    exact once _ p.2.2 hz3 hfz
  · intro h0 hp1 hp2 hp3 hex hey hez
    have h01 : g.origin.1 = 0 := by rw [h0]
    have h02 : g.origin.2.1 = 0 := by rw [h0]
    have h03 : g.origin.2.2 = 0 := by rw [h0]
    refine ⟨?_, ?_, ?_⟩
    · rw [normalize_origin_none_xLine R (normalize_origin R g (some p)),
        normalize_origin_some_origin R g p,
        normalize_origin_some_xLine R g p, h01]
      exact reset g.xLine p.1 hp1 hex
    · rw [normalize_origin_none_yLine R (normalize_origin R g (some p)),
        normalize_origin_some_origin R g p,
        normalize_origin_some_yLine R g p, h02]
      exact reset g.yLine p.2.1 hp2 hey
    · rw [normalize_origin_none_zLine R (normalize_origin R g (some p)),
        normalize_origin_some_origin R g p,
        normalize_origin_some_zLine R g p, h03]
      exact reset g.zLine p.2.2 hp3 hez

/-! ### Claim C4 — overwrite refusal -/

/-- C4: when the destination budgets container exists and `overwrite` was
not passed, `write_npz` and `write_mat` write no file at all; when it
does not exist, or `overwrite=True` is given, a session with budgets
associated writes both the budgets container and the metadata record. -/
theorem write_refusal_spec (ab de ow : Bool) (dest meta : String) :
    (de = true → ow = false →
      write_npz ab de ow dest meta = [] ∧ write_mat ab de ow dest meta = []) ∧
    (ab = true → (de = false ∨ ow = true) →
      write_npz ab de ow dest meta = [dest, meta] ∧
      write_mat ab de ow dest meta = [dest, meta]) := by
  cases ab <;> cases de <;> cases ow <;> simp [write_npz, write_mat]

/-- Witness for C4: a refused overwrite writes nothing; a fresh
destination receives both files. -/
theorem write_refusal_witness :
    (write_npz true true false "b" "m" = [] ∧
     write_mat true true false "b" "m" = []) ∧
    (write_npz true false false "b" "m" = ["b", "m"] ∧
     write_mat true false false "b" "m" = ["b", "m"]) :=
  ⟨(write_refusal_spec true true false "b" "m").1 rfl rfl,
   (write_refusal_spec true false false "b" "m").2 rfl (Or.inl rfl)⟩

/-! ### Claim C1 — Fortran-order reshape -/

theorem flatMap_range_getElem {α : Type} (B : ℕ) :
    ∀ (q n : ℕ) (f : ℕ → List α), (∀ m, (f m).length = B) → q < n → ∀ r, r < B →
      ((List.range n).flatMap f)[q * B + r]? = (f q)[r]?
  | 0, n, f => by
    intro hB hq r hr
    obtain ⟨n', rfl⟩ : ∃ n', n = n' + 1 := ⟨n - 1, by omega⟩
    rw [List.range_succ_eq_map, List.flatMap_cons, zero_mul, zero_add]
    exact List.getElem?_append_left (by rw [hB 0]; exact hr)
  | q + 1, n, f => by
    intro hB hq r hr
    obtain ⟨n', rfl⟩ : ∃ n', n = n' + 1 := ⟨n - 1, by omega⟩
    rw [List.range_succ_eq_map, List.flatMap_cons, List.flatMap_map]
    have hge : (f 0).length ≤ (q + 1) * B + r := by
      rw [hB 0]
      calc B ≤ (q + 1) * B := Nat.le_mul_of_pos_left B (by omega)
      _ ≤ (q + 1) * B + r := Nat.le_add_right _ _
    rw [List.getElem?_append_right hge, hB 0]
    have hidx : (q + 1) * B + r - B = q * B + r := by
      have h1 : (q + 1) * B = q * B + B := by ring
      omega
    rw [hidx]
    exact flatMap_range_getElem B q n' (fun m => f (Nat.succ m))
      (fun m => hB (Nat.succ m)) (by omega) r hr

theorem fortranPlane_length (nx ny kk : ℕ) :
    ((List.range ny).flatMap fun j => (List.range nx).map fun i => (i, j, kk)).length =
      ny * nx := by
  rw [List.length_flatMap]
  have hmap : List.map
      (List.length ∘ fun j => (List.range nx).map fun i => (i, j, kk))
      (List.range ny) = List.map (fun _ => nx) (List.range ny) :=
    List.map_congr_left fun a _ => by simp
  rw [hmap, List.map_const', List.sum_replicate, smul_eq_mul, List.length_range]

theorem fortranIndices_getElem (nx ny nz i j k : ℕ)
    (hi : i < nx) (hj : j < ny) (hk : k < nz) :
    (fortranIndices nx ny nz)[i + nx * j + nx * ny * k]? = some (i, j, k) := by
  have hrlt : j * nx + i < ny * nx := by
    calc j * nx + i < j * nx + nx := by omega
    _ = (j + 1) * nx := by ring
    _ ≤ ny * nx := Nat.mul_le_mul_right nx hj
  have hidx : i + nx * j + nx * ny * k = k * (ny * nx) + (j * nx + i) := by ring
  rw [fortranIndices, hidx]
  rw [flatMap_range_getElem (ny * nx) k nz _ (fortranPlane_length nx ny) hk _ hrlt]
  rw [flatMap_range_getElem nx j ny _ (fun m => by simp) hj i hi]
  rw [List.getElem?_map, List.getElem?_range hi]
  rfl

theorem fortranIndices_length (nx ny nz : ℕ) :
    (fortranIndices nx ny nz).length = nx * ny * nz := by
  rw [fortranIndices, List.length_flatMap]
  have hmap : List.map
      (List.length ∘ fun k => (List.range ny).flatMap fun j =>
        (List.range nx).map fun i => (i, j, k)) (List.range nz) =
      List.map (fun _ => ny * nx) (List.range nz) :=
    List.map_congr_left fun a _ => fortranPlane_length nx ny a
  rw [hmap, List.map_const', List.sum_replicate, smul_eq_mul, List.length_range]
  ring

theorem fortranIndices_getElem_eq (nx ny nz q i j k : ℕ)
    (hi : i < nx) (hj : j < ny) (hk : k < nz)
    (h : (fortranIndices nx ny nz)[q]? = some (i, j, k)) :
    q = i + nx * j + nx * ny * k := by
  have hq : q < nx * ny * nz := by
    have := (List.getElem?_eq_some.mp h).1
    rwa [fortranIndices_length] at this
  have hnx : 0 < nx := by by_contra hc; push_neg at hc; interval_cases nx <;> omega
  have hny : 0 < ny := by
    rcases Nat.eq_zero_or_pos ny with h0 | h0
    · rw [h0] at hq; omega
    · exact h0
  have hdecomp : q = q % nx + nx * (q / nx % ny) + nx * ny * (q / (nx * ny)) := by
    have h3 : q / nx / ny = q / (nx * ny) := Nat.div_div_eq_div_mul q nx ny
    calc q = q % nx + nx * (q / nx) := (Nat.mod_add_div q nx).symm
    _ = q % nx + nx * (q / nx % ny + ny * (q / nx / ny)) := by
        rw [Nat.mod_add_div, Nat.mod_add_div, Nat.mod_add_div]
    _ = q % nx + nx * (q / nx % ny) + nx * ny * (q / (nx * ny)) := by
        rw [h3]; ring
  have hi' : q % nx < nx := Nat.mod_lt _ hnx
  have hj' : q / nx % ny < ny := Nat.mod_lt _ hny
  have hk' : q / (nx * ny) < nz := by
    apply Nat.div_lt_of_lt_mul
    exact hq
  have h2 := fortranIndices_getElem nx ny nz _ _ _ hi' hj' hk'
  rw [← hdecomp, h] at h2
  obtain ⟨hie, hje, hke⟩ : i = q % nx ∧ j = q / nx % ny ∧ k = q / (nx * ny) := by
    have := Option.some.inj h2
    simpa [Prod.ext_iff] using this
  rw [hie, hje, hke]
  exact hdecomp

theorem lookupFirst_zip {α β : Type} [DecidableEq α] :
    ∀ (p : ℕ) (l : List α) (m : List β) (a : α), l[p]? = some a →
      (∀ q, q < p → l[q]? ≠ some a) → lookupFirst a (l.zip m) = m[p]?
  | 0, l, m, a => by
    intro hget _
    match l with
    | [] => simp at hget
    | x :: l' =>
      have hxa : x = a := by simpa using hget
      subst hxa
      match m with
      | [] => simp [List.zip_nil_right, lookupFirst]
      | b :: m' => simp [List.zip_cons_cons, lookupFirst]
  | p + 1, l, m, a => by
    intro hget hne
    match l with
    | [] => simp at hget
    | x :: l' =>
      have hxa : x ≠ a := by
        intro he
        exact hne 0 (by omega) (by simp [he])
      match m with
      | [] => simp [List.zip_nil_right, lookupFirst]
      | b :: m' =>
        rw [List.zip_cons_cons, List.getElem?_cons_succ]
        rw [lookupFirst, if_neg hxa]
        exact lookupFirst_zip p l' m' a (by simpa using hget) fun q hq => by
          have := hne (q + 1) (by omega)
          simpa using this

/-- C1: a budget term's flat float64 stream of `nx * ny * nz` values is
reshaped in column-major (Fortran) element order: the cached array's
element at `(i, j, k)` is the flat stream's element at index
`i + nx * j + nx * ny * k`. -/
theorem reshapeF_fortran (α : Type) (flat : List α) (nx ny nz i j k : ℕ)
    (hi : i < nx) (hj : j < ny) (hk : k < nz)
    (hlen : flat.length = nx * ny * nz) :
    reshapeF flat nx ny nz (i, j, k) = flat[i + nx * j + nx * ny * k]? := by
  rw [reshapeF]
  refine lookupFirst_zip (i + nx * j + nx * ny * k) _ _ _
    (fortranIndices_getElem nx ny nz i j k hi hj hk) ?_
  intro q hq hcontra
  have := fortranIndices_getElem_eq nx ny nz q i j k hi hj hk hcontra
  omega

/-- Witness for C1: a 2 x 3 x 2 stream of 12 values, index `(1, 2, 1)`. -/
theorem reshapeF_fortran_witness :
    (1 < 2 ∧ 2 < 3 ∧ 1 < 2 ∧ (List.range 12).length = 2 * 3 * 2) ∧
    reshapeF (List.range 12) 2 3 2 (1, 2, 1) =
      (List.range 12)[1 + 2 * 2 + 2 * 3 * 1]? :=
  ⟨⟨by decide, by decide, by decide, by decide⟩,
   reshapeF_fortran ℕ (List.range 12) 2 3 2 1 2 1
     (by decide) (by decide) (by decide) (by decide)⟩

/-! ### Budget-cache fold lemmas -/

theorem foldl_read_one_tidx (files : String → ℤ → BArr) (nsamp : String → ℤ → ℤ) (t : ℤ) :
    ∀ (ks : List (String × TermPair)) (s0 : PadeState), ks ≠ [] →
      (ks.foldl (read_one files nsamp t) s0).budget_tidx = t
  | [], _, h => absurd rfl h
  | kv :: ks, s0, _ => by
    rw [List.foldl_cons]
    rcases eq_or_ne ks [] with rfl | hne
    · rfl
    · exact foldl_read_one_tidx files nsamp t ks _ hne

theorem foldl_read_one_tidx_or (files : String → ℤ → BArr) (nsamp : String → ℤ → ℤ)
    (t : ℤ) (ks : List (String × TermPair)) (s0 : PadeState) :
    (ks.foldl (read_one files nsamp t) s0).budget_tidx = t ∨
    (ks.foldl (read_one files nsamp t) s0).budget_tidx = s0.budget_tidx := by
  rcases eq_or_ne ks [] with rfl | hne
  · exact Or.inr rfl
  · exact Or.inl (foldl_read_one_tidx files nsamp t ks s0 hne)

theorem foldl_read_one_isSome (files : String → ℤ → BArr) (nsamp : String → ℤ → ℤ) (t : ℤ) :
    ∀ (ks : List (String × TermPair)) (s0 : PadeState) (s : String),
      ((ks.foldl (read_one files nsamp t) s0).budget s).isSome = true →
      s ∈ ks.map Prod.fst ∨ (s0.budget s).isSome = true
  | [], _, _ => fun h => Or.inr h
  | kv :: ks, s0, s => by
    intro h
    rw [List.foldl_cons] at h
    rcases foldl_read_one_isSome files nsamp t ks _ s h with hmem | hsome
    · exact Or.inl (List.mem_cons_of_mem _ hmem)
    · by_cases he : s = kv.1
      · exact Or.inl (by simp [he])
      · right
        simpa [read_one, he] using hsome

/-! ### Nearest-time-index lemmas -/

theorem minAbsFold_spec (t : ℤ) :
    ∀ (xs : List ℤ) (x : ℤ),
      (minAbsFold t x xs = x ∨ minAbsFold t x xs ∈ xs) ∧
      (minAbsFold t x xs - t).natAbs ≤ (x - t).natAbs ∧
      ∀ y ∈ xs, (minAbsFold t x xs - t).natAbs ≤ (y - t).natAbs
  | [], x => ⟨Or.inl rfl, le_refl _, by simp⟩
  | y :: ys, x => by
    have hstep : minAbsFold t x (y :: ys) =
        minAbsFold t (if (y - t).natAbs < (x - t).natAbs then y else x) ys := by
      rw [minAbsFold, List.foldl_cons, minAbsFold]
    obtain ⟨hmem, hle, hmin⟩ :=
      minAbsFold_spec t ys (if (y - t).natAbs < (x - t).natAbs then y else x)
    by_cases h : (y - t).natAbs < (x - t).natAbs
    · rw [if_pos h] at hmem hle hmin
      refine ⟨?_, ?_, ?_⟩
      · rw [hstep, if_pos h]
        rcases hmem with h1 | h1
        · exact Or.inr (by rw [h1]; exact List.mem_cons_self y ys)
        · exact Or.inr (List.mem_cons_of_mem _ h1)
      · rw [hstep, if_pos h]
        omega
      · intro z hz
        rw [hstep, if_pos h]
        rcases List.mem_cons.mp hz with rfl | hz
        · exact hle
        · exact hmin z hz
    · rw [if_neg h] at hmem hle hmin
      refine ⟨?_, ?_, ?_⟩
      · rw [hstep, if_neg h]
        rcases hmem with h1 | h1
        · exact Or.inl h1
        · exact Or.inr (List.mem_cons_of_mem _ h1)
      · rw [hstep, if_neg h]
        exact hle
      · intro z hz
        rw [hstep, if_neg h]
        rcases List.mem_cons.mp hz with rfl | hz
        · omega
        · exact hmin z hz

theorem minAbsFold_first (t : ℤ) :
    ∀ (xs : List ℤ) (x : ℤ), ∃ i : ℕ,
      (x :: xs)[i]? = some (minAbsFold t x xs) ∧
      ∀ j y, j < i → (x :: xs)[j]? = some y →
        (minAbsFold t x xs - t).natAbs < (y - t).natAbs
  | [], x => ⟨0, by simp [minAbsFold], by omega⟩
  | y :: ys, x => by
    by_cases h : (y - t).natAbs < (x - t).natAbs
    · have heq : minAbsFold t x (y :: ys) = minAbsFold t y ys := by
        rw [minAbsFold, List.foldl_cons, if_pos h, minAbsFold]
      obtain ⟨i, hi, hfirst⟩ := minAbsFold_first t ys y
      refine ⟨i + 1, ?_, ?_⟩
      · rw [List.getElem?_cons_succ, heq]
        exact hi
      · intro j z hj hz
        rcases j with _ | j'
        · obtain rfl : x = z := by simpa using hz
          have hle := (minAbsFold_spec t ys y).2.1
          rw [heq]
          omega
        · have := hfirst j' z (by omega) (by simpa using hz)
          rw [heq]
          exact this
    · have heq : minAbsFold t x (y :: ys) = minAbsFold t x ys := by
        rw [minAbsFold, List.foldl_cons, if_neg h, minAbsFold]
      obtain ⟨i, hi, hfirst⟩ := minAbsFold_first t ys x
      rcases i with _ | i'
      · have hrx : minAbsFold t x ys = x := (by simpa using hi :
          x = minAbsFold t x ys).symm
        refine ⟨0, by simp [heq, hrx], ?_⟩
        omega
      · refine ⟨i' + 2, ?_, ?_⟩
        · rw [heq, List.getElem?_cons_succ, List.getElem?_cons_succ]
          simpa using hi
        · intro j z hj hz
          rcases j with _ | j
          · obtain rfl : x = z := by simpa using hz
            have := hfirst 0 x (by omega) (by simp)
            rw [heq]
            exact this
          rcases j with _ | j2
          · obtain rfl : y = z := by simpa using hz
            have h1 := hfirst 0 x (by omega) (by simp)
            rw [heq]
            omega
          · have := hfirst (j2 + 1) z (by omega) (by simpa using hz)
            rw [heq]
            exact this

/-! ### Claim C3 — nearest-time-index substitution -/

/-- C3: when the explicitly requested time index is not among the
available budget time indices, the raw-backend load does not fail: it is
performed at the available index minimizing the absolute difference to
the requested one, ties going to the first minimizer of the (sorted)
availability list — after a nonempty load the cache's `budget_tidx` is
that substituted index, which is available, minimizes the absolute
difference, and is the first element doing so.  (The source also prints
the substitution notice for the caller.) -/
theorem read_budgets_padeops_nearest (files : String → ℤ → BArr)
    (nsamp : String → ℤ → ℤ) (ks : List (String × TermPair))
    (st : PadeState) (t : ℤ)
    (hsorted : st.all_budget_tidx.Sorted (· < ·))
    (havail : st.all_budget_tidx ≠ [])
    (ht : t ∉ st.all_budget_tidx)
    (hks : ks ≠ []) :
    (read_budgets_padeops files nsamp ks (some t) st).budget_tidx =
      closestTidx st.all_budget_tidx t ∧
    closestTidx st.all_budget_tidx t ∈ st.all_budget_tidx ∧
    (∀ x ∈ st.all_budget_tidx,
      (closestTidx st.all_budget_tidx t - t).natAbs ≤ (x - t).natAbs) ∧
    ∃ i : ℕ, st.all_budget_tidx[i]? = some (closestTidx st.all_budget_tidx t) ∧
      ∀ j y, j < i → st.all_budget_tidx[j]? = some y →
        (closestTidx st.all_budget_tidx t - t).natAbs < (y - t).natAbs := by
  obtain ⟨x, xs, hl⟩ : ∃ x xs, st.all_budget_tidx = x :: xs := by
    rcases hc : st.all_budget_tidx with _ | ⟨x, xs⟩
    · exact absurd hc havail
    · exact ⟨x, xs, rfl⟩
  refine ⟨?_, ?_, ?_, ?_⟩
  · have hres : resolveTidx st (some t) = closestTidx st.all_budget_tidx t := by
      rw [resolveTidx, if_neg ht]
    simp only [read_budgets_padeops, hres]
    exact foldl_read_one_tidx files nsamp _ ks st hks
  · rw [hl, closestTidx]
    rcases (minAbsFold_spec t xs x).1 with h1 | h1
    · rw [h1]
      exact List.mem_cons_self x xs
    · exact List.mem_cons_of_mem _ h1
  · intro z hz
    rw [hl] at hz ⊢
    rw [closestTidx]
    rcases List.mem_cons.mp hz with rfl | hz
    · exact (minAbsFold_spec t xs z).2.1
    · exact (minAbsFold_spec t xs x).2.2 z hz
  · rw [hl, closestTidx]
    exact minAbsFold_first t xs x

/-- Witness for C3: availability `[2, 5, 9]`, requested index 4
(substituted by 5, the first minimizer of the absolute difference). -/
theorem read_budgets_padeops_nearest_witness :
    (stNear.all_budget_tidx.Sorted (· < ·) ∧ stNear.all_budget_tidx ≠ [] ∧
      (4 : ℤ) ∉ stNear.all_budget_tidx ∧ [(("ubar" : String), ((0, 1) : TermPair))] ≠ []) ∧
    ((read_budgets_padeops envW.files envW.nsamp [("ubar", (0, 1))] (some 4) stNear).budget_tidx =
        closestTidx stNear.all_budget_tidx 4 ∧
      closestTidx stNear.all_budget_tidx 4 ∈ stNear.all_budget_tidx ∧
      (∀ x ∈ stNear.all_budget_tidx,
        (closestTidx stNear.all_budget_tidx 4 - 4).natAbs ≤ (x - 4).natAbs) ∧
      ∃ i : ℕ, stNear.all_budget_tidx[i]? = some (closestTidx stNear.all_budget_tidx 4) ∧
        ∀ j y, j < i → stNear.all_budget_tidx[j]? = some y →
          (closestTidx stNear.all_budget_tidx 4 - 4).natAbs < (y - 4).natAbs) :=
  ⟨⟨by decide, by decide, by decide, by decide⟩,
   read_budgets_padeops_nearest envW.files envW.nsamp [("ubar", (0, 1))] stNear 4
     (by decide) (by decide) (by decide) (by decide)⟩

/-! ### Claim C2 — single-time-index cache invariant -/

theorem read_budgets_padeops_none_tidx (files : String → ℤ → BArr)
    (nsamp : String → ℤ → ℤ) (ks : List (String × TermPair)) (st : PadeState) :
    (read_budgets_padeops files nsamp ks none st).budget_tidx = st.budget_tidx := by
  rcases foldl_read_one_tidx_or files nsamp (resolveTidx st none) ks st with h | h
  · simpa [read_budgets_padeops, resolveTidx] using h
  · simpa [read_budgets_padeops] using h

theorem read_budgets_core_none_tidx (env : ReadEnv) (reqs : List TermReq)
    (ow : Bool) (st : PadeState) :
    (read_budgets_core env reqs ow none st).budget_tidx = st.budget_tidx := by
  simp only [read_budgets_core]
  rw [if_neg (by simp), if_neg (by simp)]
  exact read_budgets_padeops_none_tidx env.files env.nsamp _ st

theorem calc_wake_budget_tidx (env : ReadEnv) (ow : Bool) (st st2 : PadeState)
    (h : calc_wake env ow st = some st2) : st2.budget_tidx = st.budget_tidx := by
  simp only [calc_wake] at h
  split at h
  · cases h
    rfl
  · split at h
    · cases h
      split
      · rfl
      · exact read_budgets_core_none_tidx env _ false st
    · exact absurd h (by simp)

theorem read_budgets_core_clears (env : ReadEnv) (reqs : List TermReq) (ow : Bool)
    (t : ℤ) (st : PadeState) (hne : t ≠ st.budget_tidx) :
    ∀ s, ((read_budgets_core env reqs ow (some t) st).budget s).isSome = true →
      s ∈ (parse_budget_terms env.reg env.existing_keys reqs).key_subset.map Prod.fst := by
  intro s hs
  simp only [read_budgets_core] at hs
  rw [if_neg (by simp only [Option.some.injEq]; exact fun hh => hne hh.symm),
    if_pos (by simp)] at hs
  simp only [read_budgets_padeops] at hs
  rcases foldl_read_one_isSome env.files env.nsamp _ _ _ s hs with hmem | habs
  · exact hmem
  · simp [clear_budgets] at habs

/-- C2: all cached terms belong to one time index.  Whenever
`read_budgets` is called with an explicit time index different from the
cache's current `budget_tidx`, the cache is cleared before the new load,
so every key of the resulting cache comes from the parsed request — any
previously cached term not re-requested is gone. -/
theorem read_budgets_single_tidx (env : ReadEnv) (reqs : List TermReq) (ow : Bool)
    (t : ℤ) (st st2 : PadeState)
    (hne : t ≠ st.budget_tidx)
    (h : read_budgets env reqs ow (some t) st = some st2) :
    ∀ s, (st2.budget s).isSome = true →
      s ∈ (parse_budget_terms env.reg env.existing_keys reqs).key_subset.map Prod.fst := by
  simp only [read_budgets] at h
  by_cases hw : (reqs.any isWakeTerm) = true
  · rw [if_pos hw] at h
    rcases hcw : calc_wake env false st with _ | st0
    · rw [hcw] at h
      simp at h
    · rw [hcw] at h
      simp only [Option.map_some'] at h
      have hbt := calc_wake_budget_tidx env false st st0 hcw
      cases Option.some.inj h
      exact read_budgets_core_clears env reqs ow t st0 (by rw [hbt]; exact hne)
  · rw [if_neg hw] at h
    simp only [Option.map_some'] at h
    cases Option.some.inj h
    exact read_budgets_core_clears env reqs ow t st hne

/-- Witness for C2: with budget files at time indices 5 and 9, reading
`ubar` at index 5 and then `vbar` at index 9 leaves a cache whose keys
all come from the `vbar` request; in particular `ubar` is no longer
cached. -/
theorem read_budgets_single_tidx_witness :
    ((9 : ℤ) ≠ (read_budgets_core envW [TermReq.name "ubar"] false (some 5) stW).budget_tidx) ∧
    (∀ s, (((read_budgets_core envW [TermReq.name "vbar"] false (some 9)
        (read_budgets_core envW [TermReq.name "ubar"] false (some 5) stW)).budget s).isSome
          = true →
      s ∈ (parse_budget_terms envW.reg envW.existing_keys
        [TermReq.name "vbar"]).key_subset.map Prod.fst)) ∧
    ((read_budgets_core envW [TermReq.name "vbar"] false (some 9)
        (read_budgets_core envW [TermReq.name "ubar"] false (some 5) stW)).budget
          "ubar").isSome = false :=
  ⟨by decide,
   read_budgets_single_tidx envW [TermReq.name "vbar"] false 9
     (read_budgets_core envW [TermReq.name "ubar"] false (some 5) stW) _ (by decide) rfl,
   by decide⟩

/-! ### Claim C5 — wake computation -/

/-- C5: on a session whose cached `ubar` is the constant field `C` (and
`vbar` the constant field `D`) with wake terms not yet computed,
`calc_wake` stores `uwake` with `uwake i j k = inflow_u k - C` (the
inflow profile broadcast over the horizontal plane minus the mean field)
and analogously `vwake`; and when both wake terms are already cached, a
call without `overwrite` returns the state unchanged. -/
theorem calc_wake_spec (env : ReadEnv) (st : PadeState) (C D : ℚ)
    (hu : st.budget "ubar" = some fun _ _ _ => C)
    (hv : st.budget "vbar" = some fun _ _ _ => D)
    (hw : st.budget "uwake" = none) :
    (∃ st2, calc_wake env false st = some st2 ∧
      (∃ uw, st2.budget "uwake" = some uw ∧ ∀ i j k, uw i j k = env.inflow_u k - C) ∧
      (∃ vw, st2.budget "vwake" = some vw ∧ ∀ i j k, vw i j k = env.inflow_v k - D)) ∧
    (∀ st3 : PadeState, (st3.budget "uwake").isSome = true →
      (st3.budget "vwake").isSome = true →
      calc_wake env false st3 = some st3) := by
  constructor
  · simp only [calc_wake, List.all_cons, List.all_nil, hu, hv, hw,
      Option.isSome_some, Option.isSome_none, Bool.false_and, Bool.and_true,
      Bool.true_and, Bool.not_false, Bool.and_self, Bool.false_eq_true,
      if_false, if_true]
    refine ⟨_, rfl, ⟨fun i j k => env.inflow_u k - C, ?_, fun i j k => rfl⟩,
      ⟨fun i j k => env.inflow_v k - D, ?_, fun i j k => rfl⟩⟩
    · simp
    · simp
  · intro st3 h1 h2
    simp [calc_wake, h1, h2]

/-- Witness for C5: constant fields `ubar = 8`, `vbar = 3` and the zero
inflow profile. -/
theorem calc_wake_spec_witness :
    (stWake.budget "ubar" = some (fun _ _ _ => (8 : ℚ)) ∧
     stWake.budget "vbar" = some (fun _ _ _ => (3 : ℚ)) ∧
     stWake.budget "uwake" = none) ∧
    ((∃ st2, calc_wake envW false stWake = some st2 ∧
      (∃ uw, st2.budget "uwake" = some uw ∧ ∀ i j k, uw i j k = envW.inflow_u k - 8) ∧
      (∃ vw, st2.budget "vwake" = some vw ∧ ∀ i j k, vw i j k = envW.inflow_v k - 3)) ∧
     (∀ st3 : PadeState, (st3.budget "uwake").isSome = true →
       (st3.budget "vwake").isSome = true → calc_wake envW false st3 = some st3)) :=
  ⟨⟨rfl, rfl, rfl⟩, calc_wake_spec envW stWake 8 3 rfl rfl rfl⟩

/-! ### Claim C8 — request partition -/

theorem mem_filterMap_guard {α : Type} [DecidableEq α] (l : List α) (P : α → Prop)
    [DecidablePred P] (s : α) :
    s ∈ (l.filterMap fun a => if P a then some a else none) ↔ s ∈ l ∧ P s := by
  simp only [List.mem_filterMap]
  constructor
  · rintro ⟨a, ha, hif⟩
    by_cases h : P a
    · rw [if_pos h] at hif
      cases hif
      exact ⟨ha, h⟩
    · rw [if_neg h] at hif
      cases hif
  · rintro ⟨hs, hP⟩
    exact ⟨s, hs, by rw [if_pos hP]⟩

theorem mem_map_fst_filterMap_lookup (reg : List (String × TermPair))
    (l : List String) (s : String) :
    s ∈ (l.filterMap fun a => (regLookup reg a).map fun p => (a, p)).map Prod.fst ↔
      s ∈ l ∧ (regLookup reg s).isSome = true := by
  simp only [List.mem_map, List.mem_filterMap]
  constructor
  · rintro ⟨⟨a, p⟩, ⟨a2, ha2, hmap⟩, hfst⟩
    rcases hl : regLookup reg a2 with _ | p2
    · rw [hl] at hmap
      cases hmap
    · rw [hl] at hmap
      cases hmap
      cases hfst
      exact ⟨ha2, by rw [hl]; rfl⟩
  · rintro ⟨hs, hsome⟩
    rcases hl : regLookup reg s with _ | p
    · rw [hl] at hsome
      cases hsome
    · exact ⟨(s, p), ⟨s, hs, by rw [hl]; rfl⟩, rfl⟩

/-- C8: `_parse_budget_terms` partitions a list of requested names three
ways and proceeds with exactly the valid subset: the returned mapping
holds precisely the requested names that are registered and exist on the
active backend; registered-but-absent names are reported missing and
omitted; names unknown to the registry (in neither direction) are
reported invalid and omitted.  The call returns this partition instead
of failing. -/
theorem parse_budget_terms_partition (reg : List (String × TermPair))
    (existing_keys : List String) (names : List String)
    (hsub : ∀ s ∈ existing_keys, (regLookup reg s).isSome = true) :
    (∀ s : String,
      s ∈ (parse_budget_terms reg existing_keys
          (names.map TermReq.name)).key_subset.map Prod.fst ↔
        s ∈ names ∧ s ∈ existing_keys ∧ (regLookup reg s).isSome = true) ∧
    (∀ s : String,
      s ∈ (parse_budget_terms reg existing_keys (names.map TermReq.name)).missing_terms ↔
        s ∈ names ∧ s ∉ existing_keys ∧ (regLookup reg s).isSome = true) ∧
    (∀ r : TermReq,
      r ∈ (parse_budget_terms reg existing_keys (names.map TermReq.name)).invalid_terms ↔
        ∃ s, r = TermReq.name s ∧ s ∈ names ∧ (regLookup reg s).isNone = true) := by
  refine ⟨?_, ?_, ?_⟩
  · intro s
    simp only [parse_budget_terms, List.filterMap_map, Function.comp_def]
    rw [mem_map_fst_filterMap_lookup, List.mem_dedup]
    constructor
    · rintro ⟨hmem, hsome⟩
      rw [List.mem_append] at hmem
      rcases hmem with hmem | hmem
      · rw [mem_filterMap_guard] at hmem
        exact ⟨hmem.1, hmem.2, hsome⟩
      · rw [List.mem_filterMap] at hmem
        obtain ⟨p, hp, _⟩ := hmem
        rw [List.mem_filterMap] at hp
        obtain ⟨a, _, hnone⟩ := hp
        simp at hnone
    · rintro ⟨hn, he, hsome⟩
      refine ⟨List.mem_append.mpr (Or.inl ?_), hsome⟩
      exact (mem_filterMap_guard names (· ∈ existing_keys) s).mpr ⟨hn, he⟩
  · intro s
    simp only [parse_budget_terms, List.filterMap_map, Function.comp_def,
      List.mem_dedup, List.mem_append]
    constructor
    · rintro (hmem | hmem)
      · rw [mem_filterMap_guard] at hmem
        exact ⟨hmem.1, hmem.2.1, hmem.2.2⟩
      · rw [List.mem_filterMap] at hmem
        obtain ⟨p, hp, _⟩ := hmem
        rw [List.mem_filterMap] at hp
        obtain ⟨a, _, hnone⟩ := hp
        simp at hnone
    · rintro ⟨hn, he, hsome⟩
      exact Or.inl ((mem_filterMap_guard names
        (fun a => a ∉ existing_keys ∧ (regLookup reg a).isSome = true) s).mpr
        ⟨hn, he, hsome⟩)
  · intro r
    simp only [parse_budget_terms, List.mem_filter, List.mem_map]
    constructor
    · rintro ⟨⟨a, ha, rfl⟩, hpred⟩
      exact ⟨a, rfl, ha, by simpa using hpred⟩
    · rintro ⟨a, rfl, ha, hnone⟩
      exact ⟨⟨a, ha, rfl⟩, by simpa using hnone⟩

/-- Witness for C8: registry with `ubar` and `vbar`, backend exposing
only `ubar`, request `[ubar, vbar, zzz]`. -/
theorem parse_budget_terms_partition_witness :
    (∀ s ∈ ["ubar"], (regLookup regW s).isSome = true) ∧
    ((∀ s : String,
      s ∈ (parse_budget_terms regW ["ubar"]
          (["ubar", "vbar", "zzz"].map TermReq.name)).key_subset.map Prod.fst ↔
        s ∈ ["ubar", "vbar", "zzz"] ∧ s ∈ ["ubar"] ∧ (regLookup regW s).isSome = true) ∧
    (∀ s : String,
      s ∈ (parse_budget_terms regW ["ubar"]
          (["ubar", "vbar", "zzz"].map TermReq.name)).missing_terms ↔
        s ∈ ["ubar", "vbar", "zzz"] ∧ s ∉ ["ubar"] ∧ (regLookup regW s).isSome = true) ∧
    (∀ r : TermReq,
      r ∈ (parse_budget_terms regW ["ubar"]
          (["ubar", "vbar", "zzz"].map TermReq.name)).invalid_terms ↔
        ∃ s, r = TermReq.name s ∧ s ∈ ["ubar", "vbar", "zzz"] ∧
          (regLookup regW s).isNone = true)) :=
  ⟨by decide,
   parse_budget_terms_partition regW ["ubar"] ["ubar", "vbar", "zzz"] (by decide)⟩

theorem fl64_quarter_sub : fl64 ((1 : ℚ) / 4 - 0) = 1 / 4 := by
  rw [show ((1 : ℚ) / 4 - 0) = 1 / 4 by norm_num]
  exact fl64_quarter

theorem gDyad_recentered_xLine :
    (normalize_origin fl64 gDyad (some (1 / 4, 0, 0))).xLine = [1 / 4] := by
  show ([(1 : ℚ) / 2].map fun v => fl64 (v - fl64 ((1 : ℚ) / 4 - 0))) = [1 / 4]
  rw [List.map_singleton, fl64_quarter_sub]
  rw [show ((1 : ℚ) / 2 - 1 / 4) = 1 / 4 by norm_num, fl64_quarter]

/-- Witness for C6 (amended): rounding `fl64` (the float64 model), the
dyadic grid `gDyad` and target `p = (1/4, 0, 0)`: every hypothesis of
the amended theorem holds for the real rounding, re-centering twice
equals re-centering once, and on this grid the reset even restores the
axis bit-for-bit. -/
theorem normalize_origin_recenter_rounded_witness :
    (fl64 ((1 : ℚ) / 4 - 1 / 4) = 0 ∧ fl64 ((0 : ℚ) - 0) = 0 ∧
      (∀ v ∈ (normalize_origin fl64 gDyad (some (1 / 4, 0, 0))).xLine, fl64 v = v)) ∧
    (normalize_origin fl64 (normalize_origin fl64 gDyad (some (1 / 4, 0, 0)))
        (some (1 / 4, 0, 0))).xLine =
      (normalize_origin fl64 gDyad (some (1 / 4, 0, 0))).xLine ∧
    (normalize_origin fl64 (normalize_origin fl64 gDyad (some (1 / 4, 0, 0)))
        none).xLine = gDyad.xLine ∧
    (normalize_origin fl64 (normalize_origin fl64 gDyad (some (1 / 4, 0, 0)))
        none).origin = (0, 0, 0) ∧
    (normalize_origin fl64 (normalize_origin fl64 gDyad (some (1 / 4, 0, 0)))
        none).normalized_xyz = false := by
  have hz1 : fl64 ((1 : ℚ) / 4 - 1 / 4) = 0 := by
    rw [show ((1 : ℚ) / 4 - 1 / 4) = 0 by norm_num]
    exact fl64_zero
  have hz0 : fl64 ((0 : ℚ) - 0) = 0 := by
    rw [show ((0 : ℚ) - 0) = 0 by norm_num]
    exact fl64_zero
  have hfx : ∀ v ∈ (normalize_origin fl64 gDyad (some (1 / 4, 0, 0))).xLine,
      fl64 v = v := by
    rw [gDyad_recentered_xLine]
    intro v hv
    rw [List.mem_singleton] at hv
    rw [hv]
    exact fl64_quarter
  have hfy : ∀ v ∈ (normalize_origin fl64 gDyad (some (1 / 4, 0, 0))).yLine,
      fl64 v = v := by
    have hy : (normalize_origin fl64 gDyad (some (1 / 4, 0, 0))).yLine = [] := rfl
    rw [hy]
    intro v hv
    simp at hv
  have hfz : ∀ v ∈ (normalize_origin fl64 gDyad (some (1 / 4, 0, 0))).zLine,
      fl64 v = v := by
    have hz : (normalize_origin fl64 gDyad (some (1 / 4, 0, 0))).zLine = [] := rfl
    rw [hz]
    intro v hv
    simp at hv
  have hex : ∀ v ∈ gDyad.xLine,
      fl64 (v - 1 / 4) = v - 1 / 4 ∧ fl64 (v - 1 / 4 + 1 / 4) = v - 1 / 4 + 1 / 4 := by
    intro v hv
    have hv2 : v = 1 / 2 := by simpa [gDyad] using hv
    subst hv2
    constructor
    · rw [show ((1 : ℚ) / 2 - 1 / 4) = 1 / 4 by norm_num]
      exact fl64_quarter
    · rw [show ((1 : ℚ) / 2 - 1 / 4 + 1 / 4) = 1 / 2 by norm_num]
      exact fl64_half
  have hey : ∀ v ∈ gDyad.yLine,
      fl64 (v - 0) = v - 0 ∧ fl64 (v - 0 + 0) = v - 0 + 0 := by
    intro v hv
    simp [gDyad] at hv
  have hez : ∀ v ∈ gDyad.zLine,
      fl64 (v - 0) = v - 0 ∧ fl64 (v - 0 + 0) = v - 0 + 0 := by
    intro v hv
    simp [gDyad] at hv
  obtain ⟨⟨hx1, _, _⟩, hrestore, horig, hflag⟩ :=
    normalize_origin_recenter_rounded fl64 gDyad (1 / 4, 0, 0) hz1 hz0 hz0 hfx hfy hfz
  exact ⟨⟨hz1, hz0, hfx⟩, hx1,
    (hrestore rfl fl64_quarter_sub hz0 hz0 hex hey hez).1, horig, hflag⟩
